import Mathlib

set_option maxHeartbeats 1000000
set_option maxRecDepth 4000

/-!
Verification development for the opaque-identifier encryption service of the
wedding-gallery repository (`src/lib/utils.server.ts`).

The TypeScript source is shallowly embedded as executable Lean definitions:

* Bytes are `Nat` values together with the side condition `< 256`; byte
  strings are `List Nat`.
* `Buffer.from(s, "base64url")` / `buf.toString("base64url")` are embedded as
  `decodeB64url` / `encodeB64url`, following Node's documented lenient decode
  semantics (characters outside the base64 alphabets are skipped, a `=`
  terminates decoding, a trailing lone sextet is dropped).
* `buf.toString("hex")` / `Buffer.from(s, "hex")` are `hexEncodeBytes` /
  `hexDecode`.
* The `"utf8"` text codec used by `cipher.update`/`decipher.update` is
  `utf8Encode` / `utf8Decode`; decoding is total (lossy) as in Node, where
  invalid sequences produce U+FFFD rather than an exception.
* Node's `crypto` primitives (`scryptSync`, `createCipheriv("aes-256-gcm")`,
  `createDecipheriv`) are external library code, not code of this repository;
  they are modelled as an idealized AEAD that realizes the contract AES-256-GCM
  is designed to provide: `scryptSync` is a deterministic injective key
  derivation, encryption is a length-preserving keystream cipher, and the
  16-byte authentication tag is a position-weighted checksum bound to the key,
  the nonce and the ciphertext, so that any change of a single byte of nonce or
  ciphertext changes the tag.  `createDecipheriv`'s parameter validation
  (non-empty IV; `setAuthTag` accepting exactly the NIST SP 800-38D truncated
  tag lengths 16, 15, 14, 13, 12, 8 and 4 bytes; truncated-tag comparison
  against the leading bytes of the full tag) is embedded explicitly because the
  repository's `decrypt` slices its input without any length validation of its
  own.
* `randomBytes(12)` is embedded by passing the drawn nonce as an explicit
  argument to `encrypt`.
-/

/-! ### Hex codec (Node `buf.toString("hex")` / `Buffer.from(s, "hex")`) -/

/-- Lower-case hex digit for a nibble, as produced by Node's `"hex"` encoding. -/
def hexChar (n : Nat) : Char :=
  if n < 10 then Char.ofNat (48 + n) else Char.ofNat (87 + n)

/-- Value of a hex digit character (only applied to digits produced by `hexChar`). -/
def hexVal (c : Char) : Nat :=
  if c.toNat ≤ 57 then c.toNat - 48 else c.toNat - 87

/-- Node `buf.toString("hex")`: two lower-case hex digits per byte. -/
def hexEncodeBytes (bs : List Nat) : List Char :=
  bs.flatMap fun b => [hexChar (b / 16), hexChar (b % 16)]

/-- Node `Buffer.from(s, "hex")`: consume hex digits in pairs. -/
def hexDecode : List Char → List Nat
  | c1 :: c2 :: rest => (hexVal c1 * 16 + hexVal c2) :: hexDecode rest
  | _ => []

/-! ### Base64url codec (Node `buf.toString("base64url")` / `Buffer.from(s, "base64url")`) -/

/-- Character of the URL-safe base64 alphabet for a sextet value. -/
def b64Char (v : Nat) : Char :=
  if v < 26 then Char.ofNat (65 + v)
  else if v < 52 then Char.ofNat (97 + (v - 26))
  else if v < 62 then Char.ofNat (48 + (v - 52))
  else if v = 62 then Char.ofNat 45
  else Char.ofNat 95

/-- Sextet value of a character.  Node's decoder accepts both the standard and
the URL-safe alphabet; every other character yields `none` and is skipped. -/
def b64Val (c : Char) : Option Nat :=
  if 65 ≤ c.toNat ∧ c.toNat ≤ 90 then some (c.toNat - 65)
  else if 97 ≤ c.toNat ∧ c.toNat ≤ 122 then some (c.toNat - 97 + 26)
  else if 48 ≤ c.toNat ∧ c.toNat ≤ 57 then some (c.toNat - 48 + 52)
  else if c.toNat = 45 ∨ c.toNat = 43 then some 62
  else if c.toNat = 95 ∨ c.toNat = 47 then some 63
  else none

/-- Unpadded base64url encoding: three bytes become four alphabet characters,
a two-byte tail becomes three characters, a one-byte tail becomes two. -/
def encB64Chunks : List Nat → List Char
  | [] => []
  | [a] => [b64Char (a / 4), b64Char (a % 4 * 16)]
  | [a, b] => [b64Char (a / 4), b64Char (a % 4 * 16 + b / 16), b64Char (b % 16 * 4)]
  | a :: b :: c :: rest =>
      b64Char (a / 4) :: b64Char (a % 4 * 16 + b / 16) ::
        b64Char (b % 16 * 4 + c / 64) :: b64Char (c % 64) :: encB64Chunks rest

/-- Node `buf.toString("base64url")`. -/
def encodeB64url (bs : List Nat) : String :=
  String.mk (encB64Chunks bs)

/-- Sextet stream of a string under Node's lenient decoder: decoding stops at
the first `=` and characters outside the alphabets are silently skipped. -/
def decB64Sextets (cs : List Char) : List Nat :=
  (cs.takeWhile fun c => c.toNat ≠ 61).filterMap b64Val

/-- Reassemble bytes from sextets: groups of four sextets give three bytes,
a three-sextet tail gives two bytes, a two-sextet tail one byte, and a lone
trailing sextet is dropped. -/
def decB64Groups : List Nat → List Nat
  | s1 :: s2 :: s3 :: s4 :: rest =>
      (s1 * 4 + s2 / 16) :: (s2 % 16 * 16 + s3 / 4) :: (s3 % 4 * 64 + s4) :: decB64Groups rest
  | [s1, s2, s3] => [s1 * 4 + s2 / 16, s2 % 16 * 16 + s3 / 4]
  | [s1, s2] => [s1 * 4 + s2 / 16]
  | [_] => []
  | [] => []

/-- Node `Buffer.from(encoded, "base64url")`.  Never fails. -/
def decodeB64url (s : String) : List Nat :=
  decB64Groups (decB64Sextets s.data)

/-! ### UTF-8 codec (Node `"utf8"` string encoding) -/

/-- UTF-8 encoding of one Unicode scalar value. -/
def utf8EncodeChar (c : Nat) : List Nat :=
  if c < 128 then [c]
  else if c < 2048 then [192 + c / 64, 128 + c % 64]
  else if c < 65536 then [224 + c / 4096, 128 + c / 64 % 64, 128 + c % 64]
  else [240 + c / 262144, 128 + c / 4096 % 64, 128 + c / 64 % 64, 128 + c % 64]

/-- UTF-8 encoding of a string, as performed by `cipher.update(data, "utf8", ...)`. -/
def utf8Encode (s : String) : List Nat :=
  s.data.flatMap fun ch => utf8EncodeChar ch.toNat

/-- The U+FFFD replacement character Node substitutes for invalid sequences. -/
def replChar : Char := Char.ofNat 65533

/-- One step of the total (lossy) UTF-8 decoder: from a lead byte and the
remaining bytes, produce the decoded character (the scalar value of a
well-formed, shortest-form, non-surrogate sequence, U+FFFD otherwise) together
with the bytes still to decode. -/
def utf8DecodeStep (b0 : Nat) (rest : List Nat) : Char × List Nat :=
  if b0 < 128 then (Char.ofNat b0, rest)
  else if 192 ≤ b0 ∧ b0 < 224 then
    match rest with
    | b1 :: rest1 =>
      if 128 ≤ b1 ∧ b1 < 192 ∧ 128 ≤ (b0 - 192) * 64 + (b1 - 128) then
        (Char.ofNat ((b0 - 192) * 64 + (b1 - 128)), rest1)
      else (replChar, b1 :: rest1)
    | [] => (replChar, [])
  else if 224 ≤ b0 ∧ b0 < 240 then
    match rest with
    | b1 :: b2 :: rest2 =>
      if 128 ≤ b1 ∧ b1 < 192 ∧ 128 ≤ b2 ∧ b2 < 192 ∧
          2048 ≤ (b0 - 224) * 4096 + (b1 - 128) * 64 + (b2 - 128) ∧
          ((b0 - 224) * 4096 + (b1 - 128) * 64 + (b2 - 128) < 55296 ∨
            57344 ≤ (b0 - 224) * 4096 + (b1 - 128) * 64 + (b2 - 128)) then
        (Char.ofNat ((b0 - 224) * 4096 + (b1 - 128) * 64 + (b2 - 128)), rest2)
      else (replChar, b1 :: b2 :: rest2)
    | _ => (replChar, [])
  else if 240 ≤ b0 ∧ b0 < 248 then
    match rest with
    | b1 :: b2 :: b3 :: rest3 =>
      if 128 ≤ b1 ∧ b1 < 192 ∧ 128 ≤ b2 ∧ b2 < 192 ∧ 128 ≤ b3 ∧ b3 < 192 ∧
          65536 ≤ (b0 - 240) * 262144 + (b1 - 128) * 4096 + (b2 - 128) * 64 + (b3 - 128) ∧
          (b0 - 240) * 262144 + (b1 - 128) * 4096 + (b2 - 128) * 64 + (b3 - 128) < 1114112 then
        (Char.ofNat ((b0 - 240) * 262144 + (b1 - 128) * 4096 + (b2 - 128) * 64 + (b3 - 128)),
          rest3)
      else (replChar, b1 :: b2 :: b3 :: rest3)
    | _ => (replChar, [])
  else (replChar, rest)

/-- Fuel-bounded driver of the UTF-8 decoder.  Each step consumes at least the
lead byte, so fuel equal to the input length always suffices. -/
def utf8DecodeLoop : Nat → List Nat → List Char
  | _, [] => []
  | 0, _ :: _ => []
  | fuel + 1, b0 :: rest =>
    (utf8DecodeStep b0 rest).1 :: utf8DecodeLoop fuel (utf8DecodeStep b0 rest).2

/-- Total (lossy) UTF-8 decoding of a byte list, as performed by Node's
`"utf8"` decoder: well-formed sequences decode to their scalar value, and
malformed input produces U+FFFD instead of an error. -/
def utf8DecodeChars (bs : List Nat) : List Char :=
  utf8DecodeLoop bs.length bs

/-- Node `"utf8"` decoding of a byte list to a string. -/
def utf8Decode (bs : List Nat) : String :=
  String.mk (utf8DecodeChars bs)

/-! ### Idealized Node `crypto` primitives -/

/-- Modelled from Node's `crypto.scryptSync` output: a derived key is a
deterministic function of the secret, the salt and the requested output length
(32 bytes at every call site).  The model keeps the three inputs, reflecting
the ideal key-derivation contract that identical inputs give identical keys. -/
structure DerivedKey where
  secret : String
  salt : String
  outLen : Nat
deriving DecidableEq, Repr

/-- Modelled from Node's `crypto.scryptSync(secret, salt, len)`. -/
def scryptSync (secret salt : String) (len : Nat) : DerivedKey :=
  ⟨secret, salt, len⟩

/-- Numeric fingerprint of a string, used by the idealized cipher model. -/
def strNat (s : String) : Nat :=
  s.data.foldl (fun a c => a * 1114112 + c.toNat + 1) 0

/-- Numeric fingerprint of a derived key, used by the idealized cipher model. -/
def keyNat (k : DerivedKey) : Nat :=
  strNat k.secret * 3 + strNat k.salt * 5 + k.outLen + 7

/-- Positional weight used by the idealized authentication tag: byte `i`
contributes with weight `2 ^ (8 * (i % 16))`, so that changing any single byte
changes the 128-bit tag value. -/
def posWeight (i : Nat) : Nat := 2 ^ (8 * (i % 16))

/-- Position-weighted sum of a byte list starting at position `i`. -/
def posSumAux : Nat → List Nat → Nat
  | _, [] => 0
  | i, b :: rest => b * posWeight i + posSumAux (i + 1) rest

/-- Position-weighted sum of a byte list. -/
def posSum (bs : List Nat) : Nat := posSumAux 0 bs

/-- Keystream byte `i` of the idealized AES-256-GCM counter mode for a given
key and IV. -/
def ksByte (k : DerivedKey) (iv : List Nat) (i : Nat) : Nat :=
  (keyNat k + posSum iv * 131 + i * 197 + 1) % 256

/-- Idealized GCM encryption from stream position `i`: add the keystream
byte-wise modulo 256 (length-preserving, like real counter mode). -/
def gcmEncryptFrom (k : DerivedKey) (iv : List Nat) : Nat → List Nat → List Nat
  | _, [] => []
  | i, b :: rest => (b + ksByte k iv i) % 256 :: gcmEncryptFrom k iv (i + 1) rest

/-- Idealized GCM encryption of a plaintext byte list. -/
def gcmEncryptBytes (k : DerivedKey) (iv pt : List Nat) : List Nat :=
  gcmEncryptFrom k iv 0 pt

/-- Idealized GCM decryption from stream position `i`: subtract the keystream. -/
def gcmDecryptFrom (k : DerivedKey) (iv : List Nat) : Nat → List Nat → List Nat
  | _, [] => []
  | i, b :: rest => (b + 256 - ksByte k iv i) % 256 :: gcmDecryptFrom k iv (i + 1) rest

/-- Idealized GCM decryption of a ciphertext byte list. -/
def gcmDecryptBytes (k : DerivedKey) (iv ct : List Nat) : List Nat :=
  gcmDecryptFrom k iv 0 ct

/-- The 128-bit value of the idealized authentication tag: a key fingerprint
plus the position-weighted sum of `iv ++ ciphertext`, reduced modulo `2^128`.
Any single-byte change of the IV or the ciphertext changes this value. -/
def gcmTagNat (k : DerivedKey) (iv ct : List Nat) : Nat :=
  (keyNat k + posSum (iv ++ ct)) % 2 ^ 128

/-- Little-endian byte serialization of a natural number into `len` bytes. -/
def bytesOfNatLE : Nat → Nat → List Nat
  | 0, _ => []
  | len + 1, n => n % 256 :: bytesOfNatLE len (n / 256)

/-- The 16-byte authentication tag returned by `cipher.getAuthTag()` in the
idealized model. -/
def gcmAuthTag (k : DerivedKey) (iv ct : List Nat) : List Nat :=
  bytesOfNatLE 16 (gcmTagNat k iv ct)

/-- Authentication tag lengths `decipher.setAuthTag` accepts for GCM without an
explicit `authTagLength` option (NIST SP 800-38D: 128, 120, 112, 104, 96, 64 or
32 bits). -/
def tagLengthOk (n : Nat) : Bool :=
  n == 16 || n == 15 || n == 14 || n == 13 || n == 12 || n == 8 || n == 4

/-! ### The EncryptionService class (`src/lib/utils.server.ts`) -/

/-- The fixed salt constant `SALT = "wedding-gallery-v2"` of the service. -/
def EncryptionService.SALT : String := "wedding-gallery-v2"

/-- State of an `EncryptionService` instance: the private `key` field, assigned
only by the constructor. -/
structure EncryptionService where
  key : DerivedKey
deriving DecidableEq, Repr

/-- The constructor of `EncryptionService`: `process.env.ENCRYPTION_KEY` is
embedded as an `Option String`; a missing variable or an empty string is falsy
in `!process.env.ENCRYPTION_KEY` and aborts construction, otherwise the 32-byte
default key is derived once with `scryptSync`. -/
def EncryptionService.make (env : Option String) : Except String EncryptionService :=
  match env with
  | none => .error "ENCRYPTION_KEY is required in the environment variables."
  | some s =>
    if s = "" then .error "ENCRYPTION_KEY is required in the environment variables."
    else .ok ⟨scryptSync s EncryptionService.SALT 32⟩

/-- The key selected by `const key = forceKey ? scryptSync(forceKey, this.SALT, 32) : this.key`,
the first line of both `encrypt` and `decrypt`. -/
def EncryptionService.effectiveKey (svc : EncryptionService) (forceKey : Option String) :
    DerivedKey :=
  match forceKey with
  | some fk => scryptSync fk EncryptionService.SALT 32
  | none => svc.key

/-- `EncryptionService.encrypt(data, forceKey?)`.  The 12 bytes drawn by
`randomBytes(12)` are passed as the explicit argument `iv`.  Mirrors the
source: the plaintext is UTF-8 encoded and encrypted (`cipher.update(data,
"utf8", "hex")` plus `cipher.final("hex")`, i.e. hex text of the ciphertext),
the tag is read with `getAuthTag()`, the envelope is
`Buffer.concat([iv, authTag, Buffer.from(encrypted, "hex")])`, and the result
is `combined.toString("base64url")`. -/
def EncryptionService.encrypt (svc : EncryptionService) (data : String)
    (forceKey : Option String) (iv : List Nat) : String :=
  let key := svc.effectiveKey forceKey
  let encrypted := hexEncodeBytes (gcmEncryptBytes key iv (utf8Encode data))
  let authTag := gcmAuthTag key iv (gcmEncryptBytes key iv (utf8Encode data))
  let combined := iv ++ authTag ++ hexDecode encrypted
  encodeB64url combined

/-- Error message thrown by the `catch` block of `decrypt`, which wraps the
underlying error message. -/
def decryptErrMsg (m : String) : String :=
  "[EncryptionService.decrypt] " ++ m

/-- The wrapped OpenSSL message produced when GCM tag verification fails in
`decipher.final()`. -/
def authFailureMsg : String :=
  decryptErrMsg "Unsupported state or unable to authenticate data"

/-- `EncryptionService.decrypt(encoded, forceKey?)`.  Mirrors the source: the
token is decoded with `Buffer.from(encoded, "base64url")`, sliced into
`iv = combined.slice(0, 12)`, `authTag = combined.slice(12, 28)` and
`encryptedHex = combined.slice(28).toString("hex")` with no length validation,
then fed to `createDecipheriv` (which rejects an empty IV), `setAuthTag` (which
rejects tag lengths other than the NIST truncated-tag lengths) and
`decipher.update(encryptedHex, "hex", "utf8")` plus `decipher.final("utf8")`
(which verifies the possibly truncated tag against the recomputed one before
any plaintext is released, and otherwise throws).  All failures surface as the
single wrapped error of the `catch` block. -/
def EncryptionService.decrypt (svc : EncryptionService) (encoded : String)
    (forceKey : Option String) : Except String String :=
  let key := svc.effectiveKey forceKey
  let combined := decodeB64url encoded
  let iv := combined.take 12
  let authTag := (combined.drop 12).take 16
  let encryptedHex := hexEncodeBytes (combined.drop 28)
  if iv.length = 0 then .error (decryptErrMsg "Invalid initialization vector")
  else if ¬ tagLengthOk authTag.length then
    .error (decryptErrMsg "Invalid authentication tag length")
  else
    let ct := hexDecode encryptedHex
    if authTag = (gcmAuthTag key iv ct).take authTag.length then
      .ok (utf8Decode (gcmDecryptBytes key iv ct))
    else .error authFailureMsg

/-- A call to the `encrypt` method in state-passing form: the method reads
`this.key` but never assigns any field, so the post-state is the pre-state. -/
def EncryptionService.encryptCall (svc : EncryptionService) (data : String)
    (forceKey : Option String) (iv : List Nat) : String × EncryptionService :=
  (svc.encrypt data forceKey iv, svc)

/-- A call to the `decrypt` method in state-passing form: the method reads
`this.key` but never assigns any field, so the post-state is the pre-state. -/
def EncryptionService.decryptCall (svc : EncryptionService) (encoded : String)
    (forceKey : Option String) : Except String String × EncryptionService :=
  (svc.decrypt encoded forceKey, svc)

/-- The decoded envelope `iv ++ authTag ++ ciphertext` underlying a token
produced by `encrypt`. -/
def envelopeOf (svc : EncryptionService) (data : String) (forceKey : Option String)
    (iv : List Nat) : List Nat :=
  iv ++
    gcmAuthTag (svc.effectiveKey forceKey) iv
      (gcmEncryptBytes (svc.effectiveKey forceKey) iv (utf8Encode data)) ++
    gcmEncryptBytes (svc.effectiveKey forceKey) iv (utf8Encode data)

/-! ### Concrete instances used by closed evaluations -/

/-- Decidable equality of decrypt results, used by concrete evaluations. -/
instance : DecidableEq (Except String String) := fun a b =>
  match a, b with
  | .ok x, .ok y =>
    if h : x = y then isTrue (h ▸ rfl) else isFalse (fun he => h (Except.ok.inj he))
  | .error x, .error y =>
    if h : x = y then isTrue (h ▸ rfl) else isFalse (fun he => h (Except.error.inj he))
  | .ok _, .error _ => isFalse (fun he => Except.noConfusion he)
  | .error _, .ok _ => isFalse (fun he => Except.noConfusion he)

/-- A concrete service whose runtime secret is the spec scenario's
`"test-secret"`. -/
def exSvc : EncryptionService :=
  ⟨scryptSync "test-secret" EncryptionService.SALT 32⟩

/-- A concrete 12-byte draw of `randomBytes(12)`. -/
def iv12 : List Nat := [1, 2, 3, 4, 5, 6, 7, 8, 9, 10, 11, 12]

/-- A second, distinct concrete 12-byte draw of `randomBytes(12)`. -/
def iv12b : List Nat := [1, 2, 3, 4, 5, 6, 7, 8, 9, 10, 11, 13]

/-- A concrete plaintext whose UTF-8 encoding is 35 bytes long (the spec's
example identifier, extended by two characters to the 35-byte length of the
token-length scenario). -/
def p35 : String := "1rTymTXw2xXa8nm7FbN53yXSmEtvR0_URab"

/-- A concrete token whose decoded byte string has 20 bytes, i.e. fewer than
the 28 bytes of a full nonce-plus-tag header. -/
def token20 : String := encodeB64url (List.replicate 20 0)

/-! ### Codec lemmas: hex -/

/-- A hex digit round-trips through its character. -/
theorem hexVal_hexChar : ∀ n < 16, hexVal (hexChar n) = n := by decide

/-- Hex encoding of a byte list followed by decoding is the identity. -/
theorem hexDecode_hexEncodeBytes (bs : List Nat) (h : ∀ x ∈ bs, x < 256) :
    hexDecode (hexEncodeBytes bs) = bs := by
  induction bs with
  | nil => rfl
  | cons b rest ih =>
    have hb : b < 256 := h b (List.mem_cons_self b rest)
    have h1 : hexVal (hexChar (b / 16)) = b / 16 := hexVal_hexChar _ (by omega)
    have h2 : hexVal (hexChar (b % 16)) = b % 16 := hexVal_hexChar _ (by omega)
    have hrest : ∀ x ∈ rest, x < 256 := fun x hx => h x (List.mem_cons_of_mem b hx)
    unfold hexEncodeBytes at ih ⊢
    rw [List.flatMap_cons]
    simp only [List.cons_append, List.nil_append]
    rw [hexDecode, h1, h2, ih hrest]
    congr 1
    omega

/-! ### Codec lemmas: base64url -/

/-- Every sextet value round-trips through its alphabet character, and the
character is never the padding character `=`. -/
theorem b64Val_b64Char : ∀ v < 64, b64Val (b64Char v) = some v ∧ (b64Char v).toNat ≠ 61 := by
  decide

/-- Characters in the image of `b64Char` are never `+`, `/` or `=`. -/
theorem b64Char_not_special :
    ∀ v < 64, b64Char v ≠ '+' ∧ b64Char v ≠ '/' ∧ b64Char v ≠ '=' := by
  decide

/-- Sextet values produced by the decoder table are at most 63. -/
theorem b64Val_le (c : Char) (v : Nat) (h : b64Val c = some v) : v ≤ 63 := by
  unfold b64Val at h
  split_ifs at h with h1 h2 h3 h4 h5 <;> simp_all <;> omega

/-- Decoding a cons whose head is a valid alphabet character. -/
theorem decB64Sextets_cons_valid (c : Char) (cs : List Char) (v : Nat)
    (hv : b64Val c = some v) (hne : c.toNat ≠ 61) :
    decB64Sextets (c :: cs) = v :: decB64Sextets cs := by
  unfold decB64Sextets
  rw [List.takeWhile_cons]
  simp [hne, List.filterMap_cons, hv]

/-- Decoding a cons whose head is outside both base64 alphabets (and not `=`):
the character is silently skipped. -/
theorem decB64Sextets_cons_invalid (c : Char) (cs : List Char)
    (hv : b64Val c = none) (hne : c.toNat ≠ 61) :
    decB64Sextets (c :: cs) = decB64Sextets cs := by
  unfold decB64Sextets
  rw [List.takeWhile_cons]
  simp [hne, List.filterMap_cons, hv]

/-- Base64url encoding of a byte list followed by Node's lenient decoding is
the identity. -/
theorem decodeB64url_encodeB64url (bs : List Nat) (h : ∀ x ∈ bs, x < 256) :
    decodeB64url (encodeB64url bs) = bs := by
  unfold decodeB64url encodeB64url
  induction bs using encB64Chunks.induct with
  | case1 => rfl
  | case2 a =>
    have ha : a < 256 := h a (by simp)
    rw [encB64Chunks]
    rw [decB64Sextets_cons_valid _ _ _ (b64Val_b64Char (a / 4) (by omega)).1
      (b64Val_b64Char (a / 4) (by omega)).2]
    rw [decB64Sextets_cons_valid _ _ _ (b64Val_b64Char (a % 4 * 16) (by omega)).1
      (b64Val_b64Char (a % 4 * 16) (by omega)).2]
    show decB64Groups [a / 4, a % 4 * 16] = [a]
    unfold decB64Groups
    congr 1
    omega
  | case3 a b =>
    have ha : a < 256 := h a (by simp)
    have hb : b < 256 := h b (by simp)
    rw [encB64Chunks]
    rw [decB64Sextets_cons_valid _ _ _ (b64Val_b64Char (a / 4) (by omega)).1
      (b64Val_b64Char (a / 4) (by omega)).2]
    rw [decB64Sextets_cons_valid _ _ _ (b64Val_b64Char (a % 4 * 16 + b / 16) (by omega)).1
      (b64Val_b64Char (a % 4 * 16 + b / 16) (by omega)).2]
    rw [decB64Sextets_cons_valid _ _ _ (b64Val_b64Char (b % 16 * 4) (by omega)).1
      (b64Val_b64Char (b % 16 * 4) (by omega)).2]
    show decB64Groups [a / 4, a % 4 * 16 + b / 16, b % 16 * 4] = [a, b]
    unfold decB64Groups
    congr 1
    · omega
    congr 1
    omega
  | case4 a b c rest ih =>
    have ha : a < 256 := h a (by simp)
    have hb : b < 256 := h b (by simp)
    have hc : c < 256 := h c (by simp)
    have hrest : ∀ x ∈ rest, x < 256 := fun x hx => h x (by simp [hx])
    rw [encB64Chunks]
    rw [decB64Sextets_cons_valid _ _ _ (b64Val_b64Char (a / 4) (by omega)).1
      (b64Val_b64Char (a / 4) (by omega)).2]
    rw [decB64Sextets_cons_valid _ _ _ (b64Val_b64Char (a % 4 * 16 + b / 16) (by omega)).1
      (b64Val_b64Char (a % 4 * 16 + b / 16) (by omega)).2]
    rw [decB64Sextets_cons_valid _ _ _ (b64Val_b64Char (b % 16 * 4 + c / 64) (by omega)).1
      (b64Val_b64Char (b % 16 * 4 + c / 64) (by omega)).2]
    rw [decB64Sextets_cons_valid _ _ _ (b64Val_b64Char (c % 64) (by omega)).1
      (b64Val_b64Char (c % 64) (by omega)).2]
    rw [decB64Groups]
    rw [ih hrest]
    congr 1
    · omega
    congr 1
    · omega
    congr 1
    omega

/-- Length of an unpadded base64 encoding: `⌈4n/3⌉` characters for `n` bytes. -/
theorem encB64Chunks_length (bs : List Nat) :
    (encB64Chunks bs).length = (4 * bs.length + 2) / 3 := by
  induction bs using encB64Chunks.induct with
  | case1 => simp [encB64Chunks]
  | case2 a => simp [encB64Chunks]
  | case3 a b => simp [encB64Chunks]
  | case4 a b c rest ih =>
    rw [encB64Chunks]
    simp only [List.length_cons, ih]
    omega

/-- Tokens produced by the base64url encoder contain neither `+` nor `/` nor `=`. -/
theorem encB64Chunks_not_special (bs : List Nat) (h : ∀ x ∈ bs, x < 256) :
    ∀ c ∈ encB64Chunks bs, c ≠ '+' ∧ c ≠ '/' ∧ c ≠ '=' := by
  induction bs using encB64Chunks.induct with
  | case1 => simp [encB64Chunks]
  | case2 a =>
    have ha : a < 256 := h a (by simp)
    simp only [encB64Chunks, List.mem_cons, List.not_mem_nil, or_false]
    rintro c (rfl | rfl)
    · exact b64Char_not_special _ (by omega)
    · exact b64Char_not_special _ (by omega)
  | case3 a b =>
    have ha : a < 256 := h a (by simp)
    have hb : b < 256 := h b (by simp)
    simp only [encB64Chunks, List.mem_cons, List.not_mem_nil, or_false]
    rintro c (rfl | rfl | rfl)
    · exact b64Char_not_special _ (by omega)
    · exact b64Char_not_special _ (by omega)
    · exact b64Char_not_special _ (by omega)
  | case4 a b c rest ih =>
    have ha : a < 256 := h a (by simp)
    have hb : b < 256 := h b (by simp)
    have hc256 : c < 256 := h c (by simp)
    have hrest : ∀ x ∈ rest, x < 256 := fun x hx => h x (by simp [hx])
    simp only [encB64Chunks, List.mem_cons]
    rintro d (rfl | rfl | rfl | rfl | hd)
    · exact b64Char_not_special _ (by omega)
    · exact b64Char_not_special _ (by omega)
    · exact b64Char_not_special _ (by omega)
    · exact b64Char_not_special _ (by omega)
    · exact ih hrest d hd

/-- Bytes reassembled from sextet values are genuine bytes. -/
theorem decB64Groups_lt (l : List Nat) (h : ∀ s ∈ l, s ≤ 63) :
    ∀ x ∈ decB64Groups l, x < 256 := by
  induction l using decB64Groups.induct with
  | case1 s1 s2 s3 s4 rest ih =>
    have h1 : s1 ≤ 63 := h s1 (by simp)
    have h2 : s2 ≤ 63 := h s2 (by simp)
    have h3 : s3 ≤ 63 := h s3 (by simp)
    have h4 : s4 ≤ 63 := h s4 (by simp)
    have hrest : ∀ s ∈ rest, s ≤ 63 := fun s hs => h s (by simp [hs])
    simp only [decB64Groups, List.mem_cons]
    rintro x (rfl | rfl | rfl | hx)
    · omega
    · omega
    · omega
    · exact ih hrest x hx
  | case2 s1 s2 s3 =>
    have h1 : s1 ≤ 63 := h s1 (by simp)
    have h2 : s2 ≤ 63 := h s2 (by simp)
    have h3 : s3 ≤ 63 := h s3 (by simp)
    simp only [decB64Groups, List.mem_cons, List.not_mem_nil, or_false]
    rintro x (rfl | rfl)
    · omega
    · omega
  | case3 s1 s2 =>
    have h1 : s1 ≤ 63 := h s1 (by simp)
    have h2 : s2 ≤ 63 := h s2 (by simp)
    simp only [decB64Groups, List.mem_cons, List.not_mem_nil, or_false]
    rintro x rfl
    omega
  | case4 s1 => simp [decB64Groups]
  | case5 => simp [decB64Groups]

/-- Every byte produced by Node's lenient base64url decoder is below 256. -/
theorem decodeB64url_lt (s : String) : ∀ x ∈ decodeB64url s, x < 256 := by
  unfold decodeB64url
  apply decB64Groups_lt
  intro v hv
  unfold decB64Sextets at hv
  obtain ⟨c, _, hc⟩ := List.mem_filterMap.mp hv
  exact b64Val_le c v hc

/-! ### Idealized cipher lemmas -/

/-- Keystream bytes are bytes. -/
theorem ksByte_lt (k : DerivedKey) (iv : List Nat) (i : Nat) : ksByte k iv i < 256 :=
  Nat.mod_lt _ (by omega)

/-- The idealized cipher is length-preserving, like GCM counter mode. -/
theorem gcmEncryptFrom_length (k : DerivedKey) (iv : List Nat) :
    ∀ i pt, (gcmEncryptFrom k iv i pt).length = pt.length := by
  intro i pt
  induction pt generalizing i with
  | nil => rfl
  | cons b rest ih => simp [gcmEncryptFrom, ih]

/-- Ciphertext bytes are bytes. -/
theorem gcmEncryptFrom_lt (k : DerivedKey) (iv : List Nat) :
    ∀ i pt, ∀ x ∈ gcmEncryptFrom k iv i pt, x < 256 := by
  intro i pt
  induction pt generalizing i with
  | nil => simp [gcmEncryptFrom]
  | cons b rest ih =>
    intro x hx
    rw [gcmEncryptFrom] at hx
    rcases List.mem_cons.mp hx with rfl | hx
    · exact Nat.mod_lt _ (by omega)
    · exact ih (i + 1) x hx

/-- Decrypting the idealized ciphertext recovers the plaintext bytes. -/
theorem gcmDecryptFrom_gcmEncryptFrom (k : DerivedKey) (iv : List Nat) :
    ∀ i pt, (∀ x ∈ pt, x < 256) →
      gcmDecryptFrom k iv i (gcmEncryptFrom k iv i pt) = pt := by
  intro i pt
  induction pt generalizing i with
  | nil => intro _; rfl
  | cons b rest ih =>
    intro h
    have hb : b < 256 := h b (by simp)
    have hs : ksByte k iv i < 256 := ksByte_lt k iv i
    rw [gcmEncryptFrom, gcmDecryptFrom, ih (i + 1) (fun x hx => h x (by simp [hx]))]
    congr 1
    omega

/-- Little-endian serialization produces the requested number of bytes. -/
theorem bytesOfNatLE_length : ∀ len n, (bytesOfNatLE len n).length = len := by
  intro len
  induction len with
  | zero => intro n; rfl
  | succ m ih => intro n; simp [bytesOfNatLE, ih]

/-- Little-endian serialization produces bytes. -/
theorem bytesOfNatLE_lt : ∀ len n, ∀ x ∈ bytesOfNatLE len n, x < 256 := by
  intro len
  induction len with
  | zero => intro n; simp [bytesOfNatLE]
  | succ m ih =>
    intro n x hx
    rw [bytesOfNatLE] at hx
    rcases List.mem_cons.mp hx with rfl | hx
    · exact Nat.mod_lt _ (by omega)
    · exact ih (n / 256) x hx

/-- Little-endian serialization is injective below `256 ^ len`. -/
theorem bytesOfNatLE_inj : ∀ len m n, m < 256 ^ len → n < 256 ^ len →
    bytesOfNatLE len m = bytesOfNatLE len n → m = n := by
  intro len
  induction len with
  | zero =>
    intro m n hm hn _
    simp [Nat.pow_zero] at hm hn
    omega
  | succ l ih =>
    intro m n hm hn h
    rw [bytesOfNatLE, bytesOfNatLE] at h
    have h1 : m % 256 = n % 256 := (List.cons.injEq _ _ _ _ ▸ h).1
    have h2 : bytesOfNatLE l (m / 256) = bytesOfNatLE l (n / 256) :=
      (List.cons.injEq _ _ _ _ ▸ h).2
    have hm' : m / 256 < 256 ^ l := by
      rw [Nat.div_lt_iff_lt_mul (by omega)]
      calc m < 256 ^ (l + 1) := hm
      _ = 256 ^ l * 256 := by rw [Nat.pow_succ]
    have hn' : n / 256 < 256 ^ l := by
      rw [Nat.div_lt_iff_lt_mul (by omega)]
      calc n < 256 ^ (l + 1) := hn
      _ = 256 ^ l * 256 := by rw [Nat.pow_succ]
    have := ih (m / 256) (n / 256) hm' hn' h2
    omega

/-- The position-weighted sum of an append splits at the boundary. -/
theorem posSumAux_append (l r : List Nat) :
    ∀ i, posSumAux i (l ++ r) = posSumAux i l + posSumAux (i + l.length) r := by
  induction l with
  | nil => intro i; simp [posSumAux]
  | cons b rest ih =>
    intro i
    rw [List.cons_append, posSumAux, posSumAux, ih (i + 1)]
    simp only [List.length_cons]
    ring_nf

/-- Positional weights are bounded by `2 ^ 120`. -/
theorem posWeight_le (i : Nat) : posWeight i ≤ 2 ^ 120 := by
  unfold posWeight
  exact Nat.pow_le_pow_right (by omega) (by omega)

/-- Changing a single byte changes the position-weighted sum modulo `2 ^ 128`
(auxiliary, asymmetric form). -/
theorem posSum_single_change_lt (pre suf : List Nat) (x y : Nat)
    (hy : y < 256) (hlt : x < y) :
    posSum (pre ++ x :: suf) % 2 ^ 128 ≠ posSum (pre ++ y :: suf) % 2 ^ 128 := by
  intro heq
  unfold posSum at heq
  rw [posSumAux_append, posSumAux_append] at heq
  rw [posSumAux, posSumAux] at heq
  set w := posWeight (0 + pre.length) with hw
  set A := posSumAux 0 pre with hA
  set B := posSumAux (0 + pre.length + 1) suf with hB
  have hmod : A + (x * w + B) ≡ A + (y * w + B) [MOD 2 ^ 128] := heq
  have hmod2 : x * w + B ≡ y * w + B [MOD 2 ^ 128] := Nat.ModEq.add_left_cancel' A hmod
  have hmod3 : x * w ≡ y * w [MOD 2 ^ 128] := Nat.ModEq.add_right_cancel' B hmod2
  have hdvd : 2 ^ 128 ∣ y * w - x * w :=
    (Nat.modEq_iff_dvd' (Nat.mul_le_mul_right w (Nat.le_of_lt hlt))).mp hmod3
  rw [← Nat.sub_mul] at hdvd
  have hwpos : 0 < w := Nat.pos_pow_of_pos _ (by omega)
  have hpos : 0 < (y - x) * w := Nat.mul_pos (by omega) hwpos
  have hle : 2 ^ 128 ≤ (y - x) * w := Nat.le_of_dvd hpos hdvd
  have hbound : (y - x) * w ≤ 255 * 2 ^ 120 :=
    Nat.mul_le_mul (by omega) (posWeight_le _)
  have : (255 : Nat) * 2 ^ 120 < 2 ^ 128 := by norm_num
  omega

/-- Changing a single byte changes the position-weighted sum modulo `2 ^ 128`. -/
theorem posSum_single_change (pre suf : List Nat) (x y : Nat)
    (hx : x < 256) (hy : y < 256) (hne : x ≠ y) :
    posSum (pre ++ x :: suf) % 2 ^ 128 ≠ posSum (pre ++ y :: suf) % 2 ^ 128 := by
  rcases Nat.lt_or_ge x y with hlt | hge
  · exact posSum_single_change_lt pre suf x y hy hlt
  · exact (posSum_single_change_lt pre suf y x hx (by omega)).symm

/-- `256 ^ 16 = 2 ^ 128`, relating byte-serialization range to the tag modulus. -/
theorem pow256_16 : (256 : Nat) ^ 16 = 2 ^ 128 := by norm_num

/-- Changing a single byte of the authenticated data changes the 16-byte tag. -/
theorem tagBytes_single_change (K : Nat) (pre suf : List Nat) (x y : Nat)
    (hx : x < 256) (hy : y < 256) (hne : x ≠ y) :
    bytesOfNatLE 16 ((K + posSum (pre ++ x :: suf)) % 2 ^ 128) ≠
      bytesOfNatLE 16 ((K + posSum (pre ++ y :: suf)) % 2 ^ 128) := by
  intro heq
  have h1 : (K + posSum (pre ++ x :: suf)) % 2 ^ 128 < 256 ^ 16 := by
    rw [pow256_16]; exact Nat.mod_lt _ (by norm_num)
  have h2 : (K + posSum (pre ++ y :: suf)) % 2 ^ 128 < 256 ^ 16 := by
    rw [pow256_16]; exact Nat.mod_lt _ (by norm_num)
  have hval := bytesOfNatLE_inj 16 _ _ h1 h2 heq
  have hmodeq : K + posSum (pre ++ x :: suf) ≡ K + posSum (pre ++ y :: suf) [MOD 2 ^ 128] := hval
  have := Nat.ModEq.add_left_cancel' K hmodeq
  exact posSum_single_change pre suf x y hx hy hne this

/-- A list changes when one of its entries is overwritten with a new value. -/
theorem set_ne_of_getD_ne (l : List Nat) (j v : Nat) (hj : j < l.length)
    (hne : v ≠ l.getD j 0) : l.set j v ≠ l := by
  intro heq
  have h1 : (l.set j v)[j]? = some v := List.getElem?_set_self hj
  rw [heq] at h1
  have h2 : l.getD j 0 = v := by
    rw [List.getD_eq_getElem?_getD, h1]
    rfl
  exact hne h2.symm

/-! ### UTF-8 lemmas -/

/-- A decode step never re-grows the list of bytes still to decode. -/
theorem utf8DecodeStep_length (b0 : Nat) (rest : List Nat) :
    (utf8DecodeStep b0 rest).2.length ≤ rest.length := by
  rcases rest with _ | ⟨b1, _ | ⟨b2, _ | ⟨b3, rest3⟩⟩⟩ <;>
    (unfold utf8DecodeStep; dsimp only) <;> split_ifs <;> simp [List.length_cons] <;> omega

/-- The decode loop does not depend on the exact fuel once it is sufficient. -/
theorem utf8DecodeLoop_congr :
    ∀ f1 f2 bs, bs.length ≤ f1 → bs.length ≤ f2 →
      utf8DecodeLoop f1 bs = utf8DecodeLoop f2 bs := by
  intro f1
  induction f1 with
  | zero =>
    intro f2 bs h1 _
    have hnil : bs = [] := List.eq_nil_of_length_eq_zero (by omega)
    subst hnil
    cases f2 <;> rfl
  | succ g1 ih =>
    intro f2 bs h1 h2
    cases bs with
    | nil => cases f2 <;> rfl
    | cons b0 rest =>
      cases f2 with
      | zero => simp at h2
      | succ g2 =>
        simp only [utf8DecodeLoop]
        congr 1
        exact ih g2 _ (le_trans (utf8DecodeStep_length b0 rest) (by simpa using h1))
          (le_trans (utf8DecodeStep_length b0 rest) (by simpa using h2))

/-- Unfolding of the UTF-8 decoder on a cons cell. -/
theorem utf8DecodeChars_cons (b0 : Nat) (rest : List Nat) :
    utf8DecodeChars (b0 :: rest) =
      (utf8DecodeStep b0 rest).1 :: utf8DecodeChars (utf8DecodeStep b0 rest).2 := by
  unfold utf8DecodeChars
  simp only [List.length_cons, utf8DecodeLoop]
  congr 1
  exact utf8DecodeLoop_congr rest.length _ _ (utf8DecodeStep_length b0 rest) le_rfl

/-- Validity of a Lean character as a Unicode scalar value. -/
theorem char_toNat_valid (c : Char) :
    c.toNat < 55296 ∨ (57344 ≤ c.toNat ∧ c.toNat < 1114112) := c.valid

theorem char_toNat_lt (c : Char) : c.toNat < 1114112 := by
  rcases char_toNat_valid c with h | h <;> omega

theorem utf8DecodeChars_encodeChar (c : Char) (rest : List Nat) :
    utf8DecodeChars (utf8EncodeChar c.toNat ++ rest) = c :: utf8DecodeChars rest := by
  have hval := char_toNat_valid c
  set n := c.toNat with hn
  by_cases h1 : n < 128
  · rw [show utf8EncodeChar n = [n] from by rw [utf8EncodeChar, if_pos h1]]
    rw [List.cons_append, List.nil_append, utf8DecodeChars_cons]
    have hstep : utf8DecodeStep n rest = (c, rest) := by
      rw [utf8DecodeStep.eq_def, if_pos h1, hn, Char.ofNat_toNat]
    rw [hstep]
  · by_cases h2 : n < 2048
    · rw [show utf8EncodeChar n = [192 + n / 64, 128 + n % 64] from by
        rw [utf8EncodeChar, if_neg h1, if_pos h2]]
      rw [List.cons_append, List.cons_append, List.nil_append, utf8DecodeChars_cons]
      have hstep : utf8DecodeStep (192 + n / 64) ((128 + n % 64) :: rest) = (c, rest) := by
        rw [utf8DecodeStep.eq_def, if_neg (by omega), if_pos (by omega)]
        dsimp only
        rw [if_pos (by omega)]
        have harg : (192 + n / 64 - 192) * 64 + (128 + n % 64 - 128) = n := by omega
        rw [harg, hn, Char.ofNat_toNat]
      rw [hstep]
    · by_cases h3 : n < 65536
      · rw [show utf8EncodeChar n = [224 + n / 4096, 128 + n / 64 % 64, 128 + n % 64] from by
          rw [utf8EncodeChar, if_neg h1, if_neg h2, if_pos h3]]
        rw [List.cons_append, List.cons_append, List.cons_append, List.nil_append,
          utf8DecodeChars_cons]
        have hstep : utf8DecodeStep (224 + n / 4096)
            ((128 + n / 64 % 64) :: (128 + n % 64) :: rest) = (c, rest) := by
          rw [utf8DecodeStep.eq_def, if_neg (by omega), if_neg (by omega), if_pos (by omega)]
          dsimp only
          rw [if_pos (by omega)]
          have harg : (224 + n / 4096 - 224) * 4096 + (128 + n / 64 % 64 - 128) * 64 +
              (128 + n % 64 - 128) = n := by omega
          rw [harg, hn, Char.ofNat_toNat]
        rw [hstep]
      · rw [show utf8EncodeChar n =
            [240 + n / 262144, 128 + n / 4096 % 64, 128 + n / 64 % 64, 128 + n % 64] from by
          rw [utf8EncodeChar, if_neg h1, if_neg h2, if_neg h3]]
        rw [List.cons_append, List.cons_append, List.cons_append, List.cons_append,
          List.nil_append, utf8DecodeChars_cons]
        have hstep : utf8DecodeStep (240 + n / 262144)
            ((128 + n / 4096 % 64) :: (128 + n / 64 % 64) :: (128 + n % 64) :: rest) = (c, rest) := by
          rw [utf8DecodeStep.eq_def, if_neg (by omega), if_neg (by omega), if_neg (by omega),
            if_pos (by omega)]
          dsimp only
          rw [if_pos (by omega)]
          have harg : (240 + n / 262144 - 240) * 262144 + (128 + n / 4096 % 64 - 128) * 4096 +
              (128 + n / 64 % 64 - 128) * 64 + (128 + n % 64 - 128) = n := by omega
          rw [harg, hn, Char.ofNat_toNat]
        rw [hstep]

/-- UTF-8 encoded bytes are bytes. -/
theorem utf8EncodeChar_lt (c : Char) : ∀ x ∈ utf8EncodeChar c.toNat, x < 256 := by
  have h := char_toNat_lt c
  unfold utf8EncodeChar
  split_ifs with h1 h2 h3 <;> intro x hx <;>
    simp only [List.mem_cons, List.not_mem_nil, or_false] at hx
  · omega
  · rcases hx with rfl | rfl <;> omega
  · rcases hx with rfl | rfl | rfl <;> omega
  · rcases hx with rfl | rfl | rfl | rfl <;> omega

/-- Every byte of the UTF-8 encoding of a string is below 256. -/
theorem utf8Encode_lt (s : String) : ∀ x ∈ utf8Encode s, x < 256 := by
  unfold utf8Encode
  intro x hx
  obtain ⟨c, _, hc⟩ := List.mem_flatMap.mp hx
  exact utf8EncodeChar_lt c x hc

/-- UTF-8 encoding of a character list followed by lossy decoding is the identity. -/
theorem utf8DecodeChars_encode_list (l : List Char) :
    utf8DecodeChars (l.flatMap fun ch => utf8EncodeChar ch.toNat) = l := by
  induction l with
  | nil => rfl
  | cons c cs ih => rw [List.flatMap_cons, utf8DecodeChars_encodeChar, ih]

/-- UTF-8 encoding of a string followed by Node's lossy decoding is the
identity: the decrypt direction of the codec inverts the encrypt direction. -/
theorem utf8Decode_utf8Encode (s : String) : utf8Decode (utf8Encode s) = s := by
  unfold utf8Decode utf8Encode
  rw [utf8DecodeChars_encode_list]

/-! ### Envelope lemmas -/

/-- Ciphertext bytes of the idealized cipher are bytes. -/
theorem gcmEncryptBytes_lt (k : DerivedKey) (iv pt : List Nat) :
    ∀ x ∈ gcmEncryptBytes k iv pt, x < 256 :=
  gcmEncryptFrom_lt k iv 0 pt

/-- The idealized cipher preserves length. -/
theorem gcmEncryptBytes_length (k : DerivedKey) (iv pt : List Nat) :
    (gcmEncryptBytes k iv pt).length = pt.length :=
  gcmEncryptFrom_length k iv 0 pt

/-- Decryption inverts encryption byte-wise. -/
theorem gcmDecryptBytes_gcmEncryptBytes (k : DerivedKey) (iv pt : List Nat)
    (h : ∀ x ∈ pt, x < 256) :
    gcmDecryptBytes k iv (gcmEncryptBytes k iv pt) = pt :=
  gcmDecryptFrom_gcmEncryptFrom k iv 0 pt h

/-- A token of `encrypt` is exactly the base64url encoding of its envelope. -/
theorem encrypt_eq_encode_envelope (svc : EncryptionService) (data : String)
    (fk : Option String) (iv : List Nat) :
    svc.encrypt data fk iv = encodeB64url (envelopeOf svc data fk iv) := by
  simp only [EncryptionService.encrypt, envelopeOf]
  rw [hexDecode_hexEncodeBytes _ (gcmEncryptBytes_lt _ _ _)]

theorem envelopeOf_lt (svc : EncryptionService) (data : String) (fk : Option String)
    (iv : List Nat) (hb : ∀ x ∈ iv, x < 256) :
    ∀ x ∈ envelopeOf svc data fk iv, x < 256 := by
  unfold envelopeOf
  intro x hx
  rcases List.mem_append.mp hx with hx | hx
  · rcases List.mem_append.mp hx with hx | hx
    · exact hb x hx
    · exact bytesOfNatLE_lt 16 _ x hx
  · exact gcmEncryptBytes_lt _ _ _ x hx

theorem envelopeOf_length (svc : EncryptionService) (data : String) (fk : Option String)
    (iv : List Nat) :
    (envelopeOf svc data fk iv).length = iv.length + 16 + (utf8Encode data).length := by
  unfold envelopeOf
  simp only [List.length_append, gcmAuthTag, bytesOfNatLE_length, gcmEncryptBytes_length]

theorem envelope_take12 (svc : EncryptionService) (data : String) (fk : Option String)
    (iv : List Nat) (h12 : iv.length = 12) :
    (envelopeOf svc data fk iv).take 12 = iv := by
  unfold envelopeOf
  rw [List.append_assoc, List.take_left' h12]

theorem envelope_tag (svc : EncryptionService) (data : String) (fk : Option String)
    (iv : List Nat) (h12 : iv.length = 12) :
    ((envelopeOf svc data fk iv).drop 12).take 16 =
      gcmAuthTag (svc.effectiveKey fk) iv
        (gcmEncryptBytes (svc.effectiveKey fk) iv (utf8Encode data)) := by
  unfold envelopeOf
  rw [List.append_assoc, List.drop_left' h12,
    List.take_left' (by rw [gcmAuthTag, bytesOfNatLE_length])]

theorem envelope_ct (svc : EncryptionService) (data : String) (fk : Option String)
    (iv : List Nat) (h12 : iv.length = 12) :
    (envelopeOf svc data fk iv).drop 28 =
      gcmEncryptBytes (svc.effectiveKey fk) iv (utf8Encode data) := by
  unfold envelopeOf
  rw [List.append_assoc, show (28 : Nat) = 12 + 16 from rfl, ← List.drop_drop]
  rw [List.drop_left' h12]
  rw [List.drop_left' (by rw [gcmAuthTag, bytesOfNatLE_length])]

/-- Core round-trip: decrypting a token produced with the same effective key
recovers the plaintext. -/
theorem decrypt_encrypt (svc : EncryptionService) (data : String) (fk : Option String)
    (iv : List Nat) (h12 : iv.length = 12) (hb : ∀ x ∈ iv, x < 256) :
    svc.decrypt (svc.encrypt data fk iv) fk = .ok data := by
  rw [encrypt_eq_encode_envelope]
  simp only [EncryptionService.decrypt]
  rw [decodeB64url_encodeB64url _ (envelopeOf_lt svc data fk iv hb)]
  rw [envelope_take12 svc data fk iv h12, envelope_tag svc data fk iv h12,
    envelope_ct svc data fk iv h12]
  rw [hexDecode_hexEncodeBytes _ (gcmEncryptBytes_lt _ _ _)]
  rw [h12]
  rw [if_neg (by omega)]
  rw [show (gcmAuthTag (svc.effectiveKey fk) iv
      (gcmEncryptBytes (svc.effectiveKey fk) iv (utf8Encode data))).length = 16 from
    bytesOfNatLE_length 16 _]
  rw [if_neg (by decide)]
  rw [show List.take 16 (gcmAuthTag (svc.effectiveKey fk) iv
        (gcmEncryptBytes (svc.effectiveKey fk) iv (utf8Encode data))) =
      gcmAuthTag (svc.effectiveKey fk) iv
        (gcmEncryptBytes (svc.effectiveKey fk) iv (utf8Encode data)) from by
    rw [show (16 : Nat) = (gcmAuthTag (svc.effectiveKey fk) iv
        (gcmEncryptBytes (svc.effectiveKey fk) iv (utf8Encode data))).length from
      (bytesOfNatLE_length 16 _).symm, List.take_length]]
  rw [if_pos rfl]
  rw [gcmDecryptBytes_gcmEncryptBytes _ _ _ (utf8Encode_lt data), utf8Decode_utf8Encode]

/-! ### Tamper-detection lemmas -/

/-- Flipping one bit of a byte yields a different byte. -/
theorem xor_bit_facts : ∀ v < 256, ∀ b < 8, (v ^^^ 2 ^ b) < 256 ∧ (v ^^^ 2 ^ b) ≠ v := by
  decide

/-- Overwriting one byte of the authenticated data with a different value
changes the serialized 16-byte tag. -/
theorem tagBytes_set_ne (K : Nat) (d : List Nat) (j v : Nat)
    (hj : j < d.length) (hd : ∀ x ∈ d, x < 256) (hv : v < 256) (hne : v ≠ d.getD j 0) :
    bytesOfNatLE 16 ((K + posSum (d.set j v)) % 2 ^ 128) ≠
      bytesOfNatLE 16 ((K + posSum d) % 2 ^ 128) := by
  have hold : d.getD j 0 < 256 := by
    rw [List.getD_eq_getElem d 0 hj]
    exact hd _ (List.getElem_mem hj)
  have hset : d.set j v = d.take j ++ v :: d.drop (j + 1) := by
    rw [List.set_eq_take_append_cons_drop, if_pos hj]
  have hdecomp : d = d.take j ++ d.getD j 0 :: d.drop (j + 1) := by
    conv_lhs => rw [← List.take_append_drop j d, List.drop_eq_getElem_cons hj]
    rw [List.getD_eq_getElem d 0 hj]
  rw [hset]
  conv_rhs => rw [hdecomp]
  exact tagBytes_single_change K (d.take j) (d.drop (j + 1)) v (d.getD j 0) hv hold hne

/-- Decryption of a token whose decoded envelope is `iv ++ tg ++ ct` with the
exact field widths 12 and 16: the result is decided by the tag comparison. -/
theorem decrypt_parts (svc : EncryptionService) (fk : Option String)
    (iv tg ct : List Nat) (h12 : iv.length = 12) (h16 : tg.length = 16)
    (hbi : ∀ x ∈ iv, x < 256) (hbt : ∀ x ∈ tg, x < 256) (hbc : ∀ x ∈ ct, x < 256) :
    svc.decrypt (encodeB64url (iv ++ tg ++ ct)) fk =
      if tg = gcmAuthTag (svc.effectiveKey fk) iv ct then
        .ok (utf8Decode (gcmDecryptBytes (svc.effectiveKey fk) iv ct))
      else .error authFailureMsg := by
  have hball : ∀ x ∈ iv ++ tg ++ ct, x < 256 := by
    intro x hx
    rcases List.mem_append.mp hx with hx | hx
    · rcases List.mem_append.mp hx with hx | hx
      · exact hbi x hx
      · exact hbt x hx
    · exact hbc x hx
  simp only [EncryptionService.decrypt]
  rw [decodeB64url_encodeB64url _ hball]
  rw [List.append_assoc, List.take_left' h12, List.drop_left' h12, List.take_left' h16]
  rw [show (28 : Nat) = 12 + 16 from rfl, ← List.drop_drop, List.drop_left' h12,
    List.drop_left' h16]
  rw [hexDecode_hexEncodeBytes _ hbc]
  rw [h12, if_neg (by omega)]
  rw [h16, if_neg (by decide)]
  rw [show List.take 16 (gcmAuthTag (svc.effectiveKey fk) iv ct) =
      gcmAuthTag (svc.effectiveKey fk) iv ct from by
    rw [show (16 : Nat) = (gcmAuthTag (svc.effectiveKey fk) iv ct).length from
      (bytesOfNatLE_length 16 _).symm, List.take_length]]

/-- Overwriting any single byte of a well-formed envelope with a different
byte makes decryption fail with the authentication-failure error. -/
theorem decrypt_set_byte (svc : EncryptionService) (fk : Option String)
    (iv ct : List Nat) (h12 : iv.length = 12)
    (hbi : ∀ x ∈ iv, x < 256) (hbc : ∀ x ∈ ct, x < 256) (i v : Nat)
    (hi : i < 28 + ct.length) (hv : v < 256)
    (hne : v ≠ (iv ++ gcmAuthTag (svc.effectiveKey fk) iv ct ++ ct).getD i 0) :
    svc.decrypt
        (encodeB64url ((iv ++ gcmAuthTag (svc.effectiveKey fk) iv ct ++ ct).set i v)) fk =
      .error authFailureMsg := by
  set key := svc.effectiveKey fk with hkey
  set tg := gcmAuthTag key iv ct with htg
  have h16 : tg.length = 16 := bytesOfNatLE_length 16 _
  have hbt : ∀ x ∈ tg, x < 256 := bytesOfNatLE_lt 16 _
  rcases Nat.lt_or_ge i 12 with hA | hge12
  · -- flip inside the nonce
    have hval : v ≠ iv.getD i 0 := by
      rw [List.append_assoc] at hne
      rwa [List.getD_append _ _ _ _ (by omega)] at hne
    rw [List.append_assoc, List.set_append, if_pos (by omega)]
    rw [← List.append_assoc]
    rw [decrypt_parts svc fk (iv.set i v) tg ct (by rw [List.length_set]; exact h12) h16
      (fun x hx => by
        rcases List.mem_or_eq_of_mem_set hx with hx | rfl
        · exact hbi x hx
        · exact hv) hbt hbc]
    rw [if_neg ?hcond]
    case hcond =>
      rw [htg]
      simp only [gcmAuthTag, gcmTagNat]
      rw [show iv.set i v ++ ct = (iv ++ ct).set i v from by
        rw [List.set_append, if_pos (by omega)]]
      exact fun h => tagBytes_set_ne (keyNat key) (iv ++ ct) i v
        (by rw [List.length_append]; omega)
        (fun x hx => by
          rcases List.mem_append.mp hx with hx | hx
          · exact hbi x hx
          · exact hbc x hx)
        hv
        (by rwa [List.getD_append _ _ _ _ (by omega)])
        h.symm
  · rcases Nat.lt_or_ge i 28 with hB | hge28
    · -- flip inside the tag
      have hval : v ≠ tg.getD (i - 12) 0 := by
        rw [List.append_assoc] at hne
        rw [List.getD_append_right _ _ _ _ (by omega)] at hne
        rw [h12] at hne
        rwa [List.getD_append _ _ _ _ (by omega)] at hne
      rw [List.append_assoc, List.set_append, if_neg (by omega)]
      rw [List.set_append, if_pos (by omega)]
      rw [show iv.length = 12 from h12]
      rw [← List.append_assoc]
      rw [decrypt_parts svc fk iv (tg.set (i - 12) v) ct h12
        (by rw [List.length_set]; exact h16)
        hbi
        (fun x hx => by
          rcases List.mem_or_eq_of_mem_set hx with hx | rfl
          · exact hbt x hx
          · exact hv) hbc]
      rw [if_neg ?hcond2]
      case hcond2 =>
        rw [← htg]
        exact set_ne_of_getD_ne tg (i - 12) v (by omega) hval
    · -- flip inside the ciphertext
      have hict : i - 28 < ct.length := by omega
      have hval : v ≠ ct.getD (i - 28) 0 := by
        rw [List.append_assoc] at hne
        rw [List.getD_append_right _ _ _ _ (by omega)] at hne
        rw [List.getD_append_right _ _ _ _ (by omega)] at hne
        rw [h12, h16] at hne
        rwa [show i - 12 - 16 = i - 28 from by omega] at hne
      rw [List.append_assoc, List.set_append, if_neg (by omega)]
      rw [List.set_append, if_neg (by rw [h16]; omega)]
      rw [show iv.length = 12 from h12, h16]
      rw [← List.append_assoc]
      rw [decrypt_parts svc fk iv tg (ct.set (i - 12 - 16) v) h12 h16 hbi hbt
        (fun x hx => by
          rcases List.mem_or_eq_of_mem_set hx with hx | rfl
          · exact hbc x hx
          · exact hv)]
      rw [if_neg ?hcond3]
      case hcond3 =>
        rw [htg]
        simp only [gcmAuthTag, gcmTagNat]
        rw [show iv ++ ct.set (i - 12 - 16) v = (iv ++ ct).set (12 + (i - 28)) v from by
          rw [List.set_append, if_neg (by omega)]
          rw [show 12 + (i - 28) - iv.length = i - 12 - 16 from by omega]]
        intro h
        exact tagBytes_set_ne (keyNat key) (iv ++ ct) (12 + (i - 28)) v
          (by rw [List.length_append]; omega)
          (fun x hx => by
            rcases List.mem_append.mp hx with hx | hx
            · exact hbi x hx
            · exact hbc x hx)
          hv
          (by rwa [List.getD_append_right _ _ _ _ (by omega),
            show 12 + (i - 28) - iv.length = i - 28 from by omega])
          h.symm

/-! ### Claim theorems -/

/-- C1: for every plaintext string P (including the empty string and strings
containing non-ASCII text), decrypting the token produced by encrypting P
under the same (default) key returns exactly P, for every 12-byte nonce drawn
by `randomBytes(12)`. -/
theorem c1_decrypt_encrypt_roundtrip (svc : EncryptionService) (P : String)
    (iv : List Nat) (h12 : iv.length = 12) (hb : ∀ x ∈ iv, x < 256) :
    svc.decrypt (svc.encrypt P none iv) none = .ok P :=
  decrypt_encrypt svc P none iv h12 hb

/-- Witness for C1 at a concrete non-ASCII plaintext and a concrete nonce. -/
theorem c1_witness :
    iv12.length = 12 ∧ (∀ x ∈ iv12, x < 256) ∧
      exSvc.decrypt (exSvc.encrypt "hé𝄞✓" none iv12) none = .ok "hé𝄞✓" :=
  ⟨by decide, by decide,
    c1_decrypt_encrypt_roundtrip exSvc "hé𝄞✓" iv12 (by decide) (by decide)⟩

/-- C2 counterexample: a token whose decoded byte string has only 20 bytes is
not rejected by any pre-cipher minimum-length check with a distinct
MalformedToken error.  Its 12-byte IV and 8-byte tag are accepted by
`createDecipheriv` and `setAuthTag` (8 bytes is a NIST-permitted truncated tag
length), so the token reaches tag verification — cryptographic work — and
fails there with exactly the AuthenticationFailure error. -/
theorem c2_counterexample :
    (decodeB64url token20).length = 20 ∧
    exSvc.decrypt token20 none = .error authFailureMsg ∧
    authFailureMsg = decryptErrMsg "Unsupported state or unable to authenticate data" :=
  ⟨by decide, by decide, rfl⟩

/-- C2 amended: decrypt performs no length validation before the cipher.  A
decoded byte string of 20 bytes (12-byte IV plus 8-byte truncated tag, empty
ciphertext) is fed to the cipher and reaches tag verification; whenever the
8-byte tag does not match the truncated recomputed tag, decrypt fails with the
same AuthenticationFailure error as a tampered full-length token, not with a
distinct MalformedToken error. -/
theorem c2_short_token_auth_failure (svc : EncryptionService) (fk : Option String)
    (iv tg8 : List Nat) (h12 : iv.length = 12) (h8 : tg8.length = 8)
    (hbi : ∀ x ∈ iv, x < 256) (hbt : ∀ x ∈ tg8, x < 256)
    (hne : tg8 ≠ (gcmAuthTag (svc.effectiveKey fk) iv []).take 8) :
    (decodeB64url (encodeB64url (iv ++ tg8))).length = 20 ∧
    svc.decrypt (encodeB64url (iv ++ tg8)) fk = .error authFailureMsg := by
  have hball : ∀ x ∈ iv ++ tg8, x < 256 := by
    intro x hx
    rcases List.mem_append.mp hx with hx | hx
    · exact hbi x hx
    · exact hbt x hx
  have hdec : decodeB64url (encodeB64url (iv ++ tg8)) = iv ++ tg8 :=
    decodeB64url_encodeB64url _ hball
  constructor
  · rw [hdec, List.length_append, h12, h8]
  · simp only [EncryptionService.decrypt]
    rw [hdec]
    rw [List.take_left' h12, List.drop_left' h12]
    rw [List.take_of_length_le (by omega)]
    rw [show (28 : Nat) = 12 + 16 from rfl, ← List.drop_drop, List.drop_left' h12]
    rw [List.drop_eq_nil_of_le (by omega)]
    rw [h12, if_neg (by omega)]
    rw [h8, if_neg (by decide)]
    rw [show hexDecode (hexEncodeBytes []) = ([] : List Nat) from rfl]
    rw [if_neg hne]

/-- Witness for C2 (amended): a concrete 20-byte decoded token built from a
12-byte IV and a mismatching 8-byte tag fails with AuthenticationFailure. -/
theorem c2_witness :
    (List.replicate 8 0).length = 8 ∧
    exSvc.decrypt (encodeB64url (iv12 ++ List.replicate 8 0)) none = .error authFailureMsg :=
  ⟨by decide, (c2_short_token_auth_failure exSvc none iv12 (List.replicate 8 0) (by decide)
    (by decide) (by decide) (by decide) (by decide)).2⟩

/-- C3 counterexample: `!` is outside both base64 alphabets, yet prepending it
to a valid token is silently ignored by the decoding step of decrypt, which
then proceeds and even returns the original plaintext — the text-decoding step
does not reject strings containing out-of-alphabet characters. -/
theorem c3_counterexample :
    b64Val '!' = none ∧
    exSvc.decrypt (String.mk ('!' :: (exSvc.encrypt "a" none iv12).data)) none = .ok "a" :=
  ⟨by decide, by decide⟩

/-- C3 amended: the decoding step of decrypt (Node's lenient base64url
decoder) silently skips every character that is outside both base64 alphabets
and is not `=`: decrypt on a token with such a character prepended behaves
exactly as on the token without it, rather than rejecting the string. -/
theorem c3_invalid_chars_skipped (svc : EncryptionService) (fk : Option String)
    (c : Char) (s : String) (hc : b64Val c = none) (hne : c.toNat ≠ 61) :
    svc.decrypt (String.mk (c :: s.data)) fk = svc.decrypt s fk := by
  simp only [EncryptionService.decrypt]
  have hskip : decodeB64url (String.mk (c :: s.data)) = decodeB64url s := by
    unfold decodeB64url
    rw [show (String.mk (c :: s.data)).data = c :: s.data from rfl]
    rw [decB64Sextets_cons_invalid c s.data hc hne]
  rw [hskip]

/-- Witness for C3 (amended) at the concrete skipped character `!`. -/
theorem c3_witness :
    b64Val '!' = none ∧ ('!').toNat ≠ 61 ∧
    exSvc.decrypt (String.mk ('!' :: "SGVsbG8".data)) none = exSvc.decrypt "SGVsbG8" none :=
  ⟨by decide, by decide,
    c3_invalid_chars_skipped exSvc none '!' "SGVsbG8" (by decide) (by decide)⟩

/-- C4: decrypting with an explicit secret a token encrypted with the same
explicit secret returns the plaintext; moreover the default-key path and the
explicit-key path run the identical pipeline differing only in key source:
when the explicit secret equals the runtime secret the two paths produce
syntactically identical tokens and identical decryption results. -/
theorem c4_cross_key_consistency :
    (∀ (svc : EncryptionService) (P k : String) (iv : List Nat), iv.length = 12 →
      (∀ x ∈ iv, x < 256) →
      svc.decrypt (svc.encrypt P (some k) iv) (some k) = .ok P) ∧
    (∀ (secret : String) (svc : EncryptionService),
      svc.key = scryptSync secret EncryptionService.SALT 32 →
      (∀ (P : String) (iv : List Nat),
        svc.encrypt P (some secret) iv = svc.encrypt P none iv) ∧
      (∀ t : String, svc.decrypt t (some secret) = svc.decrypt t none)) := by
  constructor
  · intro svc P k iv h12 hb
    exact decrypt_encrypt svc P (some k) iv h12 hb
  · intro secret svc hkey
    have hk : svc.effectiveKey (some secret) = svc.effectiveKey none := by
      simp [EncryptionService.effectiveKey, hkey]
    constructor
    · intro P iv
      unfold EncryptionService.encrypt
      rw [hk]
    · intro t
      unfold EncryptionService.decrypt
      rw [hk]

/-- Witness for C4: a concrete explicit-key round trip, and agreement of the
two call shapes on the runtime secret. -/
theorem c4_witness :
    exSvc.decrypt (exSvc.encrypt "hello" (some "other-key") iv12) (some "other-key")
      = .ok "hello" ∧
    exSvc.encrypt "hello" (some "test-secret") iv12 = exSvc.encrypt "hello" none iv12 :=
  ⟨c4_cross_key_consistency.1 exSvc "hello" "other-key" iv12 (by decide) (by decide),
    (c4_cross_key_consistency.2 "test-secret" exSvc rfl).1 "hello" iv12⟩

/-- C6: for every valid token, flipping any single bit of its decoded byte
string (which is exactly the envelope `nonce ‖ tag ‖ ciphertext`) and
re-encoding yields a token on which decrypt fails with AuthenticationFailure;
tag verification decides the outcome before the plaintext is released, so no
altered plaintext is ever returned. -/
theorem c6_tamper_detection (svc : EncryptionService) (P : String) (fk : Option String)
    (iv : List Nat) (h12 : iv.length = 12) (hb : ∀ x ∈ iv, x < 256)
    (i b : Nat) (hi : i < (envelopeOf svc P fk iv).length) (hb8 : b < 8) :
    decodeB64url (svc.encrypt P fk iv) = envelopeOf svc P fk iv ∧
    svc.decrypt (encodeB64url ((envelopeOf svc P fk iv).set i
      ((envelopeOf svc P fk iv).getD i 0 ^^^ 2 ^ b))) fk = .error authFailureMsg := by
  have hdec : decodeB64url (svc.encrypt P fk iv) = envelopeOf svc P fk iv := by
    rw [encrypt_eq_encode_envelope,
      decodeB64url_encodeB64url _ (envelopeOf_lt svc P fk iv hb)]
  refine ⟨hdec, ?_⟩
  have hElt : ∀ x ∈ envelopeOf svc P fk iv, x < 256 := envelopeOf_lt svc P fk iv hb
  have hlen : (envelopeOf svc P fk iv).length =
      28 + (gcmEncryptBytes (svc.effectiveKey fk) iv (utf8Encode P)).length := by
    rw [envelopeOf_length, h12, gcmEncryptBytes_length]
  have hold : (envelopeOf svc P fk iv).getD i 0 < 256 := by
    rw [List.getD_eq_getElem _ 0 hi]
    exact hElt _ (List.getElem_mem hi)
  have hx := xor_bit_facts _ hold b hb8
  exact decrypt_set_byte svc fk iv
    (gcmEncryptBytes (svc.effectiveKey fk) iv (utf8Encode P)) h12 hb
    (gcmEncryptBytes_lt _ _ _) i _ (by omega) hx.1 hx.2

/-- Witness for C6: flipping the lowest bit of the first envelope byte of a
concrete valid token makes decrypt fail with AuthenticationFailure. -/
theorem c6_witness :
    (0 : Nat) < (envelopeOf exSvc "" none iv12).length ∧
    exSvc.decrypt (encodeB64url ((envelopeOf exSvc "" none iv12).set 0
      ((envelopeOf exSvc "" none iv12).getD 0 0 ^^^ 2 ^ 0))) none = .error authFailureMsg :=
  ⟨by decide, (c6_tamper_detection exSvc "" none iv12 (by decide) (by decide) 0 0
    (by decide) (by decide)).2⟩

/-- C7: the token returned by encrypt is the unpadded URL-safe base64 encoding
of the byte string `nonce(12) ‖ tag(16) ‖ ciphertext`, it contains no `+`, `/`
or `=` characters and no delimiters, and for a plaintext whose UTF-8 encoding
is 35 bytes the envelope is 63 bytes and the token 84 characters. -/
theorem c7_token_format (svc : EncryptionService) (P : String) (fk : Option String)
    (iv : List Nat) (h12 : iv.length = 12) (hb : ∀ x ∈ iv, x < 256) :
    svc.encrypt P fk iv = encodeB64url (envelopeOf svc P fk iv) ∧
    (∀ c ∈ (svc.encrypt P fk iv).data, c ≠ '+' ∧ c ≠ '/' ∧ c ≠ '=') ∧
    ((utf8Encode P).length = 35 →
      (envelopeOf svc P fk iv).length = 63 ∧ (svc.encrypt P fk iv).length = 84) := by
  refine ⟨encrypt_eq_encode_envelope svc P fk iv, ?_, ?_⟩
  · intro c hc
    rw [encrypt_eq_encode_envelope] at hc
    exact encB64Chunks_not_special _ (envelopeOf_lt svc P fk iv hb) c hc
  · intro h35
    have hlen : (envelopeOf svc P fk iv).length = 63 := by
      rw [envelopeOf_length, h12, h35]
    refine ⟨hlen, ?_⟩
    rw [encrypt_eq_encode_envelope]
    have hmk : ∀ l : List Char, (String.mk l).length = l.length := fun _ => rfl
    show (String.mk (encB64Chunks (envelopeOf svc P fk iv))).length = 84
    rw [hmk, encB64Chunks_length, hlen]

/-- Witness for C7 at a concrete 35-byte plaintext. -/
theorem c7_witness :
    (utf8Encode p35).length = 35 ∧
    (envelopeOf exSvc p35 none iv12).length = 63 ∧
    (exSvc.encrypt p35 none iv12).length = 84 :=
  ⟨by decide,
    ((c7_token_format exSvc p35 none iv12 (by decide) (by decide)).2.2 (by decide)).1,
    ((c7_token_format exSvc p35 none iv12 (by decide) (by decide)).2.2 (by decide)).2⟩

/-- C8: two encrypt calls on the same plaintext and key that draw distinct
12-byte nonces produce distinct tokens, because the token determines the
nonce: the first 12 bytes of its decoded envelope are exactly the nonce. -/
theorem c8_distinct_nonces (svc : EncryptionService) (P : String) (fk : Option String)
    (iv1 iv2 : List Nat) (h1 : iv1.length = 12) (h2 : iv2.length = 12)
    (hb1 : ∀ x ∈ iv1, x < 256) (hb2 : ∀ x ∈ iv2, x < 256) (hne : iv1 ≠ iv2) :
    svc.encrypt P fk iv1 ≠ svc.encrypt P fk iv2 ∧
    (decodeB64url (svc.encrypt P fk iv1)).take 12 = iv1 := by
  have d1 : decodeB64url (svc.encrypt P fk iv1) = envelopeOf svc P fk iv1 := by
    rw [encrypt_eq_encode_envelope,
      decodeB64url_encodeB64url _ (envelopeOf_lt svc P fk iv1 hb1)]
  have d2 : decodeB64url (svc.encrypt P fk iv2) = envelopeOf svc P fk iv2 := by
    rw [encrypt_eq_encode_envelope,
      decodeB64url_encodeB64url _ (envelopeOf_lt svc P fk iv2 hb2)]
  constructor
  · intro heq
    apply hne
    have henv : envelopeOf svc P fk iv1 = envelopeOf svc P fk iv2 := by
      rw [← d1, ← d2, heq]
    have := congrArg (List.take 12) henv
    rwa [envelope_take12 svc P fk iv1 h1, envelope_take12 svc P fk iv2 h2] at this
  · rw [d1, envelope_take12 svc P fk iv1 h1]

/-- Witness for C8 at two concrete distinct nonces. -/
theorem c8_witness :
    iv12 ≠ iv12b ∧ exSvc.encrypt "hello" none iv12 ≠ exSvc.encrypt "hello" none iv12b :=
  ⟨by decide, (c8_distinct_nonces exSvc "hello" none iv12 iv12b (by decide) (by decide)
    (by decide) (by decide) (by decide)).1⟩

/-- C9: with no runtime secret configured (including the falsy empty string),
construction fails with the MissingSecret error and no service value exists to
serve encrypt or decrypt calls; with a non-empty runtime secret, construction
succeeds and derives the 32-byte default key exactly once with scrypt. -/
theorem c9_initialization :
    EncryptionService.make none =
      .error "ENCRYPTION_KEY is required in the environment variables." ∧
    (∀ s : String, s ≠ "" →
      EncryptionService.make (some s) = .ok ⟨scryptSync s EncryptionService.SALT 32⟩ ∧
      (scryptSync s EncryptionService.SALT 32).outLen = 32) := by
  refine ⟨rfl, ?_⟩
  intro s hs
  refine ⟨?_, rfl⟩
  simp only [EncryptionService.make]
  rw [if_neg hs]

/-- Witness for C9 at the concrete secret of the spec scenario. -/
theorem c9_witness :
    ("test-secret" : String) ≠ "" ∧
    EncryptionService.make (some "test-secret") = .ok exSvc :=
  ⟨by decide, (c9_initialization.2 "test-secret" (by decide)).1⟩

/-- C10: an encrypt or decrypt call with an explicit override secret leaves
the service state — the cached default derived key, the only field, assigned
only by the constructor — unchanged: the post-state of the call equals the
pre-state, and a subsequent default-key call behaves exactly as if no override
call had occurred. -/
theorem c10_frame_no_state_change (svc : EncryptionService) (d d2 e e2 k : String)
    (iv iv2 : List Nat) :
    (svc.encryptCall d (some k) iv).2 = svc ∧
    (svc.decryptCall e (some k)).2 = svc ∧
    ((svc.encryptCall d (some k) iv).2).encrypt d2 none iv2 = svc.encrypt d2 none iv2 ∧
    ((svc.decryptCall e (some k)).2).decrypt e2 none = svc.decrypt e2 none :=
  ⟨rfl, rfl, rfl, rfl⟩
